import Mathlib

/-!
Verification of the feature-engineering transformer layer described by the
repository's specification.  The repository itself is a notebook of calls
into library estimators; the estimators' behaviour is modelled here from the
specification's own words, and the spec's testable properties are settled
against those models.

All numeric data is modelled over `ℚ` (exact arithmetic); category labels,
tokens and column names are `String`s ordered lexicographically by
character code.
-/

namespace UMP

/-- Strict lexicographic order on lists of characters, comparing by
character code.  Structural and fully computable. -/
def lexLt : List Char → List Char → Bool
  | [], [] => false
  | [], _ :: _ => true
  | _ :: _, [] => false
  | a :: as, b :: bs =>
    if a.toNat < b.toNat then true
    else if b.toNat < a.toNat then false
    else lexLt as bs

/-- Strict lexicographic order on strings (by character codes). -/
def strLt (a b : String) : Bool := lexLt a.data b.data

theorem lexLt_cons (a b : Char) (as bs : List Char) :
    lexLt (a :: as) (b :: bs) =
      if a.toNat < b.toNat then true
      else if b.toNat < a.toNat then false
      else lexLt as bs := rfl

theorem lexLt_irrefl : ∀ l : List Char, lexLt l l = false := by
  intro l
  induction l with
  | nil => rfl
  | cons a as ih => rw [lexLt_cons, if_neg (Nat.lt_irrefl _), if_neg (Nat.lt_irrefl _), ih]

theorem lexLt_trans : ∀ {l₁ l₂ l₃ : List Char},
    lexLt l₁ l₂ = true → lexLt l₂ l₃ = true → lexLt l₁ l₃ = true := by
  intro l₁
  induction l₁ with
  | nil =>
    intro l₂ l₃ h₁ h₂
    cases l₂ with
    | nil => exact absurd h₁ (by simp [lexLt])
    | cons b bs =>
      cases l₃ with
      | nil => exact absurd h₂ (by simp [lexLt])
      | cons c cs => rfl
  | cons a as ih =>
    intro l₂ l₃ h₁ h₂
    cases l₂ with
    | nil => exact absurd h₁ (by simp [lexLt])
    | cons b bs =>
      cases l₃ with
      | nil => exact absurd h₂ (by simp [lexLt])
      | cons c cs =>
        rw [lexLt_cons] at h₁ h₂ ⊢
        rcases Nat.lt_trichotomy a.toNat b.toNat with hab | hab | hab
        · rcases Nat.lt_trichotomy b.toNat c.toNat with hbc | hbc | hbc
          · rw [if_pos (Nat.lt_trans hab hbc)]
          · rw [if_pos (hbc ▸ hab)]
          · rw [if_neg (Nat.lt_asymm hbc), if_pos hbc] at h₂
            exact absurd h₂ (by simp)
        · rw [if_neg (hab ▸ Nat.lt_irrefl _), if_neg (hab ▸ Nat.lt_irrefl _)] at h₁
          rcases Nat.lt_trichotomy b.toNat c.toNat with hbc | hbc | hbc
          · rw [if_pos (hab ▸ hbc)]
          · rw [if_neg (hbc ▸ hab ▸ Nat.lt_irrefl _), if_neg (hbc ▸ hab ▸ Nat.lt_irrefl _)]
            rw [if_neg (hbc ▸ Nat.lt_irrefl _), if_neg (hbc ▸ Nat.lt_irrefl _)] at h₂
            exact ih h₁ h₂
          · rw [if_neg (Nat.lt_asymm hbc), if_pos hbc] at h₂
            exact absurd h₂ (by simp)
        · rw [if_neg (Nat.lt_asymm hab), if_pos hab] at h₁
          exact absurd h₁ (by simp)

theorem lexLt_connex : ∀ {l₁ l₂ : List Char},
    lexLt l₁ l₂ = false → lexLt l₂ l₁ = false → l₁ = l₂ := by
  intro l₁
  induction l₁ with
  | nil =>
    intro l₂ h₁ _
    cases l₂ with
    | nil => rfl
    | cons b bs => exact absurd h₁ (by simp [lexLt])
  | cons a as ih =>
    intro l₂ h₁ h₂
    cases l₂ with
    | nil => exact absurd h₂ (by simp [lexLt])
    | cons b bs =>
      rw [lexLt_cons] at h₁ h₂
      rcases Nat.lt_trichotomy a.toNat b.toNat with hab | hab | hab
      · rw [if_pos hab] at h₁
        exact absurd h₁ (by simp)
      · rw [if_neg (hab ▸ Nat.lt_irrefl _), if_neg (hab ▸ Nat.lt_irrefl _)] at h₁ h₂
        have : a = b := Char.ext (UInt32.ext hab)
        rw [this, ih h₁ h₂]
      · rw [if_pos hab] at h₂
        exact absurd h₂ (by simp)

theorem strLt_irrefl (s : String) : strLt s s = false := lexLt_irrefl s.data

theorem strLt_trans {a b c : String} (h₁ : strLt a b = true)
    (h₂ : strLt b c = true) : strLt a c = true := lexLt_trans h₁ h₂

theorem strLt_connex {a b : String} (h₁ : strLt a b = false)
    (h₂ : strLt b a = false) : a = b := String.ext (lexLt_connex h₁ h₂)

/-- Insert a label into a strictly sorted duplicate-free list of labels,
keeping it strictly sorted and duplicate-free. -/
def insertSorted (x : String) : List String → List String
  | [] => [x]
  | y :: ys =>
    if strLt x y then x :: y :: ys
    else if x = y then y :: ys
    else y :: insertSorted x ys

/-- The distinct labels occurring in a list, sorted lexicographically.
This is the deterministic column/vocabulary ordering the spec requires:
"sorted deterministically (e.g., lexicographically)". -/
def sortedDedup (xs : List String) : List String := xs.foldr insertSorted []

theorem insertSorted_cons (x y : String) (ys : List String) :
    insertSorted x (y :: ys) =
      if strLt x y then x :: y :: ys
      else if x = y then y :: ys
      else y :: insertSorted x ys := rfl

theorem mem_insertSorted {a x : String} : ∀ {l : List String},
    a ∈ insertSorted x l ↔ a = x ∨ a ∈ l := by
  intro l
  induction l with
  | nil => simp [insertSorted]
  | cons y ys ih =>
    rw [insertSorted_cons]
    by_cases hxy : strLt x y = true
    · rw [if_pos hxy]
      simp [List.mem_cons]
    · rw [if_neg hxy]
      by_cases hEq : x = y
      · subst hEq
        rw [if_pos rfl]
        simp only [List.mem_cons]
        tauto
      · rw [if_neg hEq]
        simp only [List.mem_cons, ih]
        tauto

theorem pairwise_insertSorted {x : String} : ∀ {l : List String},
    l.Pairwise (fun a b => strLt a b = true) →
    (insertSorted x l).Pairwise (fun a b => strLt a b = true) := by
  intro l
  induction l with
  | nil => intro _; simp [insertSorted]
  | cons y ys ih =>
    intro hp
    rcases List.pairwise_cons.mp hp with ⟨hy, hys⟩
    rw [insertSorted_cons]
    by_cases hxy : strLt x y = true
    · rw [if_pos hxy]
      refine List.pairwise_cons.mpr ⟨?_, hp⟩
      intro b hb
      rcases List.mem_cons.mp hb with rfl | hb
      · exact hxy
      · exact strLt_trans hxy (hy b hb)
    · rw [if_neg hxy]
      by_cases hEq : x = y
      · rw [if_pos hEq]; exact hp
      · rw [if_neg hEq]
        refine List.pairwise_cons.mpr ⟨?_, ih hys⟩
        intro b hb
        rcases mem_insertSorted.mp hb with rfl | hb
        · -- here y < b must hold: neither b < y nor b = y
          cases hyb : strLt y b
          · exact absurd (strLt_connex (Bool.eq_false_iff.mpr hxy) hyb) hEq
          · rfl
        · exact hy b hb

theorem pairwise_sortedDedup (xs : List String) :
    (sortedDedup xs).Pairwise (fun a b => strLt a b = true) := by
  induction xs with
  | nil => simp [sortedDedup]
  | cons x xs ih => exact pairwise_insertSorted ih

theorem mem_sortedDedup {a : String} : ∀ {xs : List String},
    a ∈ sortedDedup xs ↔ a ∈ xs := by
  intro xs
  induction xs with
  | nil => simp [sortedDedup]
  | cons x xs ih =>
    show a ∈ insertSorted x (sortedDedup xs) ↔ _
    rw [mem_insertSorted]
    simp [List.mem_cons, ih]

theorem nodup_sortedDedup (xs : List String) : (sortedDedup xs).Nodup := by
  refine (pairwise_sortedDedup xs).imp ?_
  intro a b hab hEq
  rw [hEq, strLt_irrefl] at hab
  exact Bool.false_ne_true hab

/-- Two strictly sorted lists of labels with the same members are equal. -/
theorem sorted_mem_ext : ∀ {l₁ l₂ : List String},
    l₁.Pairwise (fun a b => strLt a b = true) →
    l₂.Pairwise (fun a b => strLt a b = true) →
    (∀ a, a ∈ l₁ ↔ a ∈ l₂) → l₁ = l₂ := by
  intro l₁
  induction l₁ with
  | nil =>
    intro l₂ _ _ hmem
    cases l₂ with
    | nil => rfl
    | cons b bs => exact absurd ((hmem b).mpr (List.mem_cons_self b bs)) (by simp)
  | cons a as ih =>
    intro l₂ h₁ h₂ hmem
    cases l₂ with
    | nil => exact absurd ((hmem a).mp (List.mem_cons_self a as)) (by simp)
    | cons b bs =>
      rcases List.pairwise_cons.mp h₁ with ⟨ha, has⟩
      rcases List.pairwise_cons.mp h₂ with ⟨hb, hbs⟩
      have hab : a = b := by
        rcases List.mem_cons.mp ((hmem a).mp (List.mem_cons_self a as)) with h | h
        · exact h
        · rcases List.mem_cons.mp ((hmem b).mpr (List.mem_cons_self b bs)) with h' | h'
          · exact h'.symm
          · have := strLt_trans (hb a h) (ha b h')
            rw [strLt_irrefl] at this
            exact absurd this Bool.false_ne_true
      subst hab
      have htail : ∀ c, c ∈ as ↔ c ∈ bs := by
        intro c
        constructor
        · intro hc
          rcases List.mem_cons.mp ((hmem c).mp (List.mem_cons.mpr (Or.inr hc))) with h | h
          · have := ha c hc
            rw [h, strLt_irrefl] at this
            exact absurd this Bool.false_ne_true
          · exact h
        · intro hc
          rcases List.mem_cons.mp ((hmem c).mpr (List.mem_cons.mpr (Or.inr hc))) with h | h
          · have := hb c hc
            rw [h, strLt_irrefl] at this
            exact absurd this Bool.false_ne_true
          · exact h
      rw [ih has hbs htail]

/-! ### One-hot categorical encoding

Modelled from the spec: the one-hot encoder "emits one binary column per
distinct category value seen at fit time, value 1 marking presence", with
column order "derived from the union of categorical levels ... sorted
deterministically (e.g., lexicographically)". -/

/-- Modelled from the spec: the fit-time column list of the one-hot
encoder — the distinct category values, sorted lexicographically. -/
def oneHotColumns (xs : List String) : List String := sortedDedup xs

/-- Modelled from the spec: the encoded row for one category value —
a 1 in the column of that value and 0 elsewhere. -/
def oneHotRow (cols : List String) (x : String) : List Nat :=
  cols.map (fun c => if x = c then 1 else 0)

/-- Modelled from the spec: one-hot `fit_transform` — fit the column list
on the data, then encode every input row against those columns. -/
def oneHotFitTransform (xs : List String) : List String × List (List Nat) :=
  (oneHotColumns xs, xs.map (oneHotRow (oneHotColumns xs)))

/-- C1: One-hot encoding a categorical field fitted and transformed on the
input categories ["Fremont","Queen Anne","Fremont"] yields exactly the
columns ["Fremont","Queen Anne"] in that order, with encoded rows
[1,0],[0,1],[1,0]. -/
theorem oneHot_fremont_queenAnne :
    oneHotFitTransform ["Fremont", "Queen Anne", "Fremont"] =
      (["Fremont", "Queen Anne"], [[1, 0], [0, 1], [1, 0]]) := by
  decide

/-! ### Ordinal (label) encoding -/

/-- Modelled from the spec: the ordinal encoder's fitted class list —
each distinct value mapped "to a unique index in the order first
encountered or sorted lexicographically (must be deterministic)"; the
sorted-lexicographic policy is the one modelled. -/
def labelClasses (xs : List String) : List String := sortedDedup xs

/-- Index of a value in the fitted class list, `none` when unseen. -/
def lookupIdx : List String → String → Option Nat
  | [], _ => none
  | c :: cs, v => if v = c then some 0 else (lookupIdx cs v).map (· + 1)

/-- Modelled from the spec: ordinal `transform` of one value — its integer
code in the fitted class list. -/
def labelTransform (classes : List String) (v : String) : Option Nat :=
  lookupIdx classes v

/-- Modelled from the spec: ordinal `inverse_transform` of one code —
the class label stored at that index. -/
def labelInverse (classes : List String) (i : Nat) : Option String :=
  classes[i]?

theorem lookupIdx_roundtrip {v : String} : ∀ {l : List String}, v ∈ l →
    ∃ i, lookupIdx l v = some i ∧ l[i]? = some v := by
  intro l
  induction l with
  | nil => intro h; exact absurd h (by simp)
  | cons c cs ih =>
    intro h
    by_cases hv : v = c
    · subst hv
      exact ⟨0, by simp [lookupIdx], by simp⟩
    · have hm : v ∈ cs := by
        rcases List.mem_cons.mp h with h' | h'
        · exact absurd h' hv
        · exact h'
      rcases ih hm with ⟨i, hi, hg⟩
      refine ⟨i + 1, ?_, ?_⟩
      · simp [lookupIdx, hv, hi]
      · simpa using hg

/-- C6: The ordinal encoder assigns each distinct category a unique index
deterministically (classes strictly sorted lexicographically, hence
duplicate-free), and for every value present in the fit data,
`inverse_transform (transform v)` recovers the original label. -/
theorem labelEncoder_roundtrip (xs : List String) (v : String) (h : v ∈ xs) :
    (labelClasses xs).Pairwise (fun a b => strLt a b = true) ∧
    (labelClasses xs).Nodup ∧
    ∃ i, labelTransform (labelClasses xs) v = some i ∧
      labelInverse (labelClasses xs) i = some v := by
  refine ⟨pairwise_sortedDedup xs, nodup_sortedDedup xs, ?_⟩
  exact lookupIdx_roundtrip (mem_sortedDedup.mpr h)

/-- Witness for C6 at a concrete input. -/
theorem labelEncoder_roundtrip_witness :
    ("a" ∈ ["b", "a"]) ∧
    ((labelClasses ["b", "a"]).Pairwise (fun a b => strLt a b = true) ∧
     (labelClasses ["b", "a"]).Nodup ∧
     ∃ i, labelTransform (labelClasses ["b", "a"]) "a" = some i ∧
       labelInverse (labelClasses ["b", "a"]) i = some "a") :=
  ⟨by decide, labelEncoder_roundtrip ["b", "a"] "a" (by decide)⟩

/-! ### Determinism and column ordering -/

/-- Modelled from the spec: the count vectorizer's fitted vocabulary —
the distinct tokens of all documents (documents given as token lists),
sorted lexicographically. -/
def countVocab (docs : List (List String)) : List String :=
  sortedDedup docs.flatten

/-- C8: Fitting and transforming is deterministic (repeated runs are
identical), and the fitted column order is a deterministic, sorted
function of the set of categorical levels or vocabulary terms seen at
fit time: two fits over data with the same levels (resp. the same
tokens) produce identical, lexicographically sorted columns. -/
theorem fitTransform_deterministic (xs ys : List String)
    (ds₁ ds₂ : List (List String))
    (hcat₁ : ∀ a ∈ xs, a ∈ ys) (hcat₂ : ∀ a ∈ ys, a ∈ xs)
    (htok₁ : ∀ t ∈ ds₁.flatten, t ∈ ds₂.flatten)
    (htok₂ : ∀ t ∈ ds₂.flatten, t ∈ ds₁.flatten) :
    oneHotFitTransform xs = oneHotFitTransform xs ∧
    (oneHotColumns xs).Pairwise (fun a b => strLt a b = true) ∧
    oneHotColumns xs = oneHotColumns ys ∧
    (countVocab ds₁).Pairwise (fun a b => strLt a b = true) ∧
    countVocab ds₁ = countVocab ds₂ := by
  refine ⟨rfl, pairwise_sortedDedup xs, ?_, pairwise_sortedDedup ds₁.flatten, ?_⟩
  · refine sorted_mem_ext (pairwise_sortedDedup xs) (pairwise_sortedDedup ys) ?_
    intro a
    show a ∈ sortedDedup xs ↔ a ∈ sortedDedup ys
    rw [mem_sortedDedup, mem_sortedDedup]
    exact ⟨hcat₁ a, hcat₂ a⟩
  · refine sorted_mem_ext (pairwise_sortedDedup ds₁.flatten)
      (pairwise_sortedDedup ds₂.flatten) ?_
    intro t
    show t ∈ sortedDedup ds₁.flatten ↔ t ∈ sortedDedup ds₂.flatten
    rw [mem_sortedDedup, mem_sortedDedup]
    exact ⟨htok₁ t, htok₂ t⟩

/-- Witness for C8 at concrete inputs. -/
theorem fitTransform_deterministic_witness :
    (∀ a ∈ ["b", "a", "b"], a ∈ ["a", "b"]) ∧
    (∀ a ∈ ["a", "b"], a ∈ ["b", "a", "b"]) ∧
    (oneHotFitTransform ["b", "a", "b"] = oneHotFitTransform ["b", "a", "b"] ∧
     (oneHotColumns ["b", "a", "b"]).Pairwise (fun a b => strLt a b = true) ∧
     oneHotColumns ["b", "a", "b"] = oneHotColumns ["a", "b"] ∧
     (countVocab [["x"]]).Pairwise (fun a b => strLt a b = true) ∧
     countVocab [["x"]] = countVocab [["x"], ["x"]]) :=
  ⟨by decide, by decide,
    fitTransform_deterministic ["b", "a", "b"] ["a", "b"] [["x"]] [["x"], ["x"]]
      (by decide) (by decide) (by decide) (by decide)⟩

/-! ### Min-max scaling -/

/-- Fit-time column minimum (0 on an empty column, never used there). -/
def colMin : List ℚ → ℚ
  | [] => 0
  | [v] => v
  | v :: w :: ws => min v (colMin (w :: ws))

/-- Fit-time column maximum (0 on an empty column, never used there). -/
def colMax : List ℚ → ℚ
  | [] => 0
  | [v] => v
  | v :: w :: ws => max v (colMax (w :: ws))

/-- Clamp a value to the unit interval. -/
def clamp01 (x : ℚ) : ℚ := max 0 (min 1 x)

/-- Modelled from the spec: the min-max scaler's transform of one cell,
"each cell becomes (value − column min) / (column max − column min),
clamped to [0,1]". -/
def minmaxCell (lo hi v : ℚ) : ℚ := clamp01 ((v - lo) / (hi - lo))

/-- Modelled from the spec: min-max transform of a column against its own
fit-time (min, max) parameters. -/
def minmaxTransform (col : List ℚ) : List ℚ :=
  col.map (minmaxCell (colMin col) (colMax col))

theorem colMin_le_mem {v : ℚ} : ∀ {l : List ℚ}, v ∈ l → colMin l ≤ v := by
  intro l
  induction l with
  | nil => intro h; exact absurd h (by simp)
  | cons x xs ih =>
    intro h
    cases xs with
    | nil =>
      rcases List.mem_cons.mp h with rfl | h'
      · exact le_refl v
      · exact absurd h' (by simp)
    | cons w ws =>
      rcases List.mem_cons.mp h with rfl | h'
      · exact min_le_left _ _
      · exact le_trans (min_le_right _ _) (ih h')

theorem mem_le_colMax {v : ℚ} : ∀ {l : List ℚ}, v ∈ l → v ≤ colMax l := by
  intro l
  induction l with
  | nil => intro h; exact absurd h (by simp)
  | cons x xs ih =>
    intro h
    cases xs with
    | nil =>
      rcases List.mem_cons.mp h with rfl | h'
      · exact le_refl v
      · exact absurd h' (by simp)
    | cons w ws =>
      rcases List.mem_cons.mp h with rfl | h'
      · exact le_max_left _ _
      · exact le_trans (ih h') (le_max_right _ _)

theorem colMin_mem : ∀ {l : List ℚ}, l ≠ [] → colMin l ∈ l := by
  intro l
  induction l with
  | nil => intro h; exact absurd rfl h
  | cons x xs ih =>
    intro _
    cases xs with
    | nil => simp [colMin]
    | cons w ws =>
      show min x (colMin (w :: ws)) ∈ _
      rcases le_total x (colMin (w :: ws)) with h | h
      · rw [min_eq_left h]; exact List.mem_cons_self _ _
      · rw [min_eq_right h]
        exact List.mem_cons.mpr (Or.inr (ih (by simp)))

theorem colMax_mem : ∀ {l : List ℚ}, l ≠ [] → colMax l ∈ l := by
  intro l
  induction l with
  | nil => intro h; exact absurd rfl h
  | cons x xs ih =>
    intro _
    cases xs with
    | nil => simp [colMax]
    | cons w ws =>
      show max x (colMax (w :: ws)) ∈ _
      rcases le_total x (colMax (w :: ws)) with h | h
      · rw [max_eq_right h]
        exact List.mem_cons.mpr (Or.inr (ih (by simp)))
      · rw [max_eq_left h]; exact List.mem_cons_self _ _

/-- C2: On a fitted column with non-degenerate range, every transformed
cell of the fit data equals (value − column min) / (column max − column
min), lies in [0,1], the cell holding the column minimum maps to 0, and
the cell holding the column maximum maps to 1. -/
theorem minmax_unit_interval (col : List ℚ) (v : ℚ) (hv : v ∈ col)
    (hne : colMin col ≠ colMax col) :
    minmaxCell (colMin col) (colMax col) v =
      (v - colMin col) / (colMax col - colMin col) ∧
    0 ≤ minmaxCell (colMin col) (colMax col) v ∧
    minmaxCell (colMin col) (colMax col) v ≤ 1 ∧
    minmaxCell (colMin col) (colMax col) (colMin col) = 0 ∧
    minmaxCell (colMin col) (colMax col) (colMax col) = 1 := by
  have hlo : colMin col ≤ v := colMin_le_mem hv
  have hhi : v ≤ colMax col := mem_le_colMax hv
  have hlt : colMin col < colMax col :=
    lt_of_le_of_ne (le_trans hlo hhi) hne
  have hpos : 0 < colMax col - colMin col := sub_pos.mpr hlt
  have hraw : ∀ w : ℚ, colMin col ≤ w → w ≤ colMax col →
      minmaxCell (colMin col) (colMax col) w =
        (w - colMin col) / (colMax col - colMin col) := by
    intro w h₁ h₂
    have h0 : 0 ≤ (w - colMin col) / (colMax col - colMin col) :=
      div_nonneg (sub_nonneg.mpr h₁) (le_of_lt hpos)
    have h1 : (w - colMin col) / (colMax col - colMin col) ≤ 1 :=
      (div_le_one hpos).mpr (sub_le_sub_right h₂ _)
    unfold minmaxCell clamp01
    rw [min_eq_right h1, max_eq_right h0]
  have hv' := hraw v hlo hhi
  refine ⟨hv', ?_, ?_, ?_, ?_⟩
  · rw [hv']
    exact div_nonneg (sub_nonneg.mpr hlo) (le_of_lt hpos)
  · rw [hv']
    exact (div_le_one hpos).mpr (sub_le_sub_right hhi _)
  · rw [hraw (colMin col) (le_refl _) (le_of_lt hlt)]
    simp
  · rw [hraw (colMax col) (le_of_lt hlt) (le_refl _)]
    exact div_self (ne_of_gt hpos)

/-- Witness for C2 at a concrete column. -/
theorem minmax_unit_interval_witness :
    ((1 : ℚ) ∈ [1, 3]) ∧ colMin [(1 : ℚ), 3] ≠ colMax [(1 : ℚ), 3] ∧
    (minmaxCell (colMin [(1 : ℚ), 3]) (colMax [(1 : ℚ), 3]) 1 =
       (1 - colMin [(1 : ℚ), 3]) / (colMax [(1 : ℚ), 3] - colMin [(1 : ℚ), 3]) ∧
     0 ≤ minmaxCell (colMin [(1 : ℚ), 3]) (colMax [(1 : ℚ), 3]) 1 ∧
     minmaxCell (colMin [(1 : ℚ), 3]) (colMax [(1 : ℚ), 3]) 1 ≤ 1 ∧
     minmaxCell (colMin [(1 : ℚ), 3]) (colMax [(1 : ℚ), 3]) (colMin [(1 : ℚ), 3]) = 0 ∧
     minmaxCell (colMin [(1 : ℚ), 3]) (colMax [(1 : ℚ), 3]) (colMax [(1 : ℚ), 3]) = 1) :=
  ⟨by simp, by norm_num [colMin, colMax],
    minmax_unit_interval [1, 3] 1 (by simp) (by norm_num [colMin, colMax])⟩

/-! ### Mean imputation -/

/-- Error kinds the spec's error-handling design names. -/
inductive TransformError where
  | UnseenCategory
  | InsufficientData
  | DegenerateColumn
  | ShapeMismatch
  | NotFitted
deriving DecidableEq

/-- The non-missing values of a column of optional cells. -/
def presentValues (col : List (Option ℚ)) : List ℚ := col.filterMap id

/-- Modelled from the spec: mean-strategy imputer fit on one column — the
"per-column scalar (mean ...) computed at fit time from non-missing values
only"; "a column with zero non-missing values at fit time fails with an
InsufficientData error". -/
def imputerFitCol (col : List (Option ℚ)) : Except TransformError ℚ :=
  match presentValues col with
  | [] => .error .InsufficientData
  | v :: vs => .ok ((v :: vs).sum / (v :: vs).length)

/-- Modelled from the spec: imputer transform of one column — missing
cells replaced by the fitted statistic, present cells kept. -/
def imputerTransformCol (stat : ℚ) (col : List (Option ℚ)) : List ℚ :=
  col.map (fun c => c.getD stat)

/-- Map a fallible function over a list, propagating the first error. -/
def mapExcept {α β ε : Type} (f : α → Except ε β) : List α → Except ε (List β)
  | [] => .ok []
  | x :: xs =>
    match f x with
    | .error e => .error e
    | .ok y =>
      match mapExcept f xs with
      | .error e => .error e
      | .ok ys => .ok (y :: ys)

/-- Modelled from the spec: imputer `fit` then `transform` on a matrix
given as a list of columns; any column failure propagates immediately. -/
def imputerFitTransform (cols : List (List (Option ℚ))) :
    Except TransformError (List (List ℚ)) :=
  mapExcept (fun col => (imputerFitCol col).map
    (fun s => imputerTransformCol s col)) cols

theorem presentValues_map_some (col : List ℚ) :
    presentValues (col.map some) = col := by
  simp [presentValues, List.filterMap_map]

theorem imputerFitTransform_cons_error {c : List (Option ℚ)}
    {cs : List (List (Option ℚ))} {e : TransformError}
    (h : (imputerFitCol c).map (fun s => imputerTransformCol s c) = .error e) :
    imputerFitTransform (c :: cs) = .error e := by
  unfold imputerFitTransform
  rw [mapExcept, h]

theorem imputerFitTransform_cons_ok_ok {c : List (Option ℚ)}
    {cs : List (List (Option ℚ))} {y : List ℚ} {ys : List (List ℚ)}
    (h₁ : (imputerFitCol c).map (fun s => imputerTransformCol s c) = .ok y)
    (h₂ : imputerFitTransform cs = .ok ys) :
    imputerFitTransform (c :: cs) = .ok (y :: ys) := by
  unfold imputerFitTransform at h₂ ⊢
  rw [mapExcept, h₁, h₂]

theorem imputerFitTransform_cons_ok_error {c : List (Option ℚ)}
    {cs : List (List (Option ℚ))} {y : List ℚ} {e : TransformError}
    (h₁ : (imputerFitCol c).map (fun s => imputerTransformCol s c) = .ok y)
    (h₂ : imputerFitTransform cs = .error e) :
    imputerFitTransform (c :: cs) = .error e := by
  unfold imputerFitTransform at h₂ ⊢
  rw [mapExcept, h₁, h₂]

/-- C4: On a matrix with no missing cells, the imputer's fit-then-transform
returns the matrix unchanged. -/
theorem imputer_no_missing_id (vals : List (List ℚ))
    (h : ∀ col ∈ vals, col ≠ []) :
    imputerFitTransform (vals.map (fun col => col.map some)) =
      .ok vals := by
  induction vals with
  | nil => rfl
  | cons col cols ih =>
    have hcol : col ≠ [] := h col (List.mem_cons_self _ _)
    have hfit : ∃ s, imputerFitCol (col.map some) = .ok s := by
      unfold imputerFitCol
      rw [presentValues_map_some]
      cases col with
      | nil => exact absurd rfl hcol
      | cons v vs => exact ⟨_, rfl⟩
    rcases hfit with ⟨s, hs⟩
    have htr : imputerTransformCol s (col.map some) = col := by
      unfold imputerTransformCol
      rw [List.map_map]
      simp [Function.comp_def]
    show imputerFitTransform (col.map some :: cols.map _) = _
    exact imputerFitTransform_cons_ok_ok
      (by rw [hs]; simp [Except.map, htr])
      (ih (fun c hc => h c (List.mem_cons.mpr (Or.inr hc))))

/-- Witness for C4 at a concrete matrix. -/
theorem imputer_no_missing_id_witness :
    (∀ col ∈ [[(1 : ℚ), 2]], col ≠ []) ∧
    imputerFitTransform ([[(1 : ℚ), 2]].map (fun col => col.map some)) =
      .ok [[(1 : ℚ), 2]] :=
  ⟨by simp, imputer_no_missing_id [[(1 : ℚ), 2]] (by simp)⟩

theorem imputerFitCol_error_or_ok (col : List (Option ℚ)) :
    imputerFitCol col = .error .InsufficientData ∨
    ∃ s, imputerFitCol col = .ok s := by
  unfold imputerFitCol
  cases presentValues col with
  | nil => exact Or.inl rfl
  | cons v vs => exact Or.inr ⟨_, rfl⟩

theorem imputerFitCol_allNone {col : List (Option ℚ)}
    (h : ∀ c ∈ col, c = none) :
    imputerFitCol col = .error .InsufficientData := by
  have hp : presentValues col = [] := by
    unfold presentValues
    induction col with
    | nil => rfl
    | cons c cs ih =>
      rw [h c (List.mem_cons_self _ _)]
      exact ih (fun c' hc' => h c' (List.mem_cons.mpr (Or.inr hc')))
  unfold imputerFitCol
  rw [hp]

/-- C5: On a matrix containing a column whose cells are all missing, the
imputer's fit fails with an InsufficientData error rather than producing
a result. -/
theorem imputer_all_missing_fails (cols : List (List (Option ℚ)))
    (h : ∃ col ∈ cols, ∀ c ∈ col, c = none) :
    imputerFitTransform cols = .error .InsufficientData := by
  induction cols with
  | nil => rcases h with ⟨col, hc, _⟩; exact absurd hc (by simp)
  | cons c cs ih =>
    rcases imputerFitCol_error_or_ok c with hc | ⟨s, hs⟩
    · exact imputerFitTransform_cons_error (by rw [hc]; rfl)
    · rcases h with ⟨col, hmem, hall⟩
      rcases List.mem_cons.mp hmem with rfl | hmem'
      · rw [imputerFitCol_allNone hall] at hs
        exact absurd hs (by simp)
      · exact imputerFitTransform_cons_ok_error (by rw [hs]; rfl)
          (ih ⟨col, hmem', hall⟩)

/-- Witness for C5 at a concrete matrix. -/
theorem imputer_all_missing_fails_witness :
    (∃ col ∈ [[(none : Option ℚ)]], ∀ c ∈ col, c = none) ∧
    imputerFitTransform [[(none : Option ℚ)]] =
      .error .InsufficientData :=
  ⟨by simp, imputer_all_missing_fails [[(none : Option ℚ)]] (by simp)⟩

/-! ### TF-IDF inverse document frequency -/

/-- Number of documents (given as token lists) containing a term. -/
def docFreq (t : String) (docs : List (List String)) : Nat :=
  (docs.filter (fun d => decide (t ∈ d))).length

/-- Modelled from the spec: the TF-IDF vectorizer's inverse document
frequency, "log(total documents / documents containing term) with a
smoothing constant to avoid division by zero for terms present in all
documents" — the standard smoothing adds one to both counts and one to
the logarithm: idf = log((1 + n)/(1 + df)) + 1. -/
noncomputable def idf (n df : ℕ) : ℝ :=
  Real.log ((1 + n) / (1 + df)) + 1

/-- C3: For a term appearing in every document of the fitted collection,
the IDF factor equals the smoothing minimum 1 — a finite real value — and
1 is indeed the minimum of the IDF over all possible document
frequencies. -/
theorem tfidf_smoothing_minimum (docs : List (List String)) (t : String)
    (h : ∀ d ∈ docs, t ∈ d) :
    docFreq t docs = docs.length ∧
    idf docs.length (docFreq t docs) = 1 ∧
    ∀ df : ℕ, df ≤ docs.length → 1 ≤ idf docs.length df := by
  have hdf : docFreq t docs = docs.length := by
    unfold docFreq
    rw [List.filter_eq_self.mpr (fun d hd => decide_eq_true (h d hd))]
  refine ⟨hdf, ?_, ?_⟩
  · rw [hdf]
    unfold idf
    rw [div_self (by positivity : (1 : ℝ) + docs.length ≠ 0), Real.log_one,
      zero_add]
  · intro df hle
    unfold idf
    have hx : (1 : ℝ) ≤ (1 + docs.length) / (1 + df) := by
      rw [one_le_div (by positivity : (0 : ℝ) < 1 + df)]
      have : (df : ℝ) ≤ docs.length := Nat.cast_le.mpr hle
      linarith
    have := Real.log_nonneg hx
    linarith

/-- Witness for C3 at a concrete document collection. -/
theorem tfidf_smoothing_minimum_witness :
    (∀ d ∈ [["a"], ["a", "b"]], "a" ∈ d) ∧
    (docFreq "a" [["a"], ["a", "b"]] = ([["a"], ["a", "b"]] : List (List String)).length ∧
     idf ([["a"], ["a", "b"]] : List (List String)).length
       (docFreq "a" [["a"], ["a", "b"]]) = 1 ∧
     ∀ df : ℕ, df ≤ ([["a"], ["a", "b"]] : List (List String)).length →
       1 ≤ idf ([["a"], ["a", "b"]] : List (List String)).length df) :=
  ⟨by decide, tfidf_smoothing_minimum [["a"], ["a", "b"]] "a" (by decide)⟩

/-! ### Polynomial feature expansion -/

/-- All exponent tuples of a given length with a given total degree, in
graded order with the leading exponent descending. -/
def tuplesOfSum : Nat → Nat → List (List Nat)
  | 0, 0 => [[]]
  | 0, _ + 1 => []
  | k + 1, n =>
    (List.range (n + 1)).flatMap
      (fun j => (tuplesOfSum k j).map (fun t => (n - j) :: t))

/-- Modelled from the spec: the columns of polynomial feature expansion
for `k` input columns and degree `d` — "every monomial combination of the
input columns with total exponent between 1 and d (optionally including
the bias/constant column depending on configuration)", in a deterministic
graded order. -/
def polyColumns (bias : Bool) (k d : Nat) : List (List Nat) :=
  (if bias then [List.replicate k 0] else []) ++
    (List.range d).flatMap (fun i => tuplesOfSum k (i + 1))

/-- Value of one monomial (an exponent tuple) on an input row. -/
def monEval (row : List ℚ) (e : List Nat) : ℚ :=
  (List.zipWith (fun x i => x ^ i) row e).prod

/-- Modelled from the spec: polynomial expansion of one input row. -/
def polyTransformRow (bias : Bool) (d : Nat) (row : List ℚ) : List ℚ :=
  (polyColumns bias row.length d).map (monEval row)

theorem mem_tuplesOfSum : ∀ {k n : Nat} {t : List Nat},
    t ∈ tuplesOfSum k n ↔ t.length = k ∧ t.sum = n := by
  intro k
  induction k with
  | zero =>
    intro n t
    cases n with
    | zero =>
      constructor
      · intro h
        rcases List.mem_singleton.mp h with rfl
        exact ⟨rfl, rfl⟩
      · intro ⟨hl, hs⟩
        rw [List.length_eq_zero.mp hl]
        exact List.mem_singleton.mpr rfl
    | succ m =>
      constructor
      · intro h; exact absurd h (by simp [tuplesOfSum])
      · intro ⟨hl, hs⟩
        rw [List.length_eq_zero.mp hl] at hs
        exact absurd hs (by simp)
  | succ k ih =>
    intro n t
    show t ∈ (List.range (n + 1)).flatMap _ ↔ _
    rw [List.mem_flatMap]
    constructor
    · rintro ⟨j, hj, ht⟩
      rcases List.mem_map.mp ht with ⟨t', ht', rfl⟩
      rcases ih.mp ht' with ⟨hl, hs⟩
      refine ⟨by simp [hl], ?_⟩
      rw [List.sum_cons, hs]
      have : j ≤ n := Nat.lt_succ_iff.mp (List.mem_range.mp hj)
      omega
    · rintro ⟨hl, hs⟩
      cases t with
      | nil => exact absurd hl (by simp)
      | cons a t' =>
        refine ⟨t'.sum, ?_, ?_⟩
        · rw [List.mem_range, Nat.lt_succ_iff]
          rw [List.sum_cons] at hs
          omega
        · refine List.mem_map.mpr ⟨t', ih.mpr ⟨by simpa using hl, rfl⟩, ?_⟩
          rw [List.sum_cons] at hs
          have : a = n - t'.sum := by omega
          rw [this]

theorem tuplesOfSum_zero : ∀ k : Nat, tuplesOfSum k 0 = [List.replicate k 0] := by
  intro k
  induction k with
  | zero => rfl
  | succ k ih =>
    show (List.range 1).flatMap _ = _
    rw [show List.range 1 = [0] from rfl, List.flatMap_cons, List.flatMap_nil, ih]
    simp [List.replicate]

theorem tuplesOfSum_one (k : Nat) :
    tuplesOfSum (k + 1) 1 =
      (1 :: List.replicate k 0) :: (tuplesOfSum k 1).map (fun t => 0 :: t) := by
  show (List.range 2).flatMap _ = _
  rw [show List.range 2 = [0, 1] from rfl, List.flatMap_cons, List.flatMap_cons,
    List.flatMap_nil, tuplesOfSum_zero]
  simp

theorem nodup_tuplesOfSum : ∀ (k n : Nat), (tuplesOfSum k n).Nodup := by
  intro k
  induction k with
  | zero =>
    intro n
    cases n with
    | zero => simp [tuplesOfSum]
    | succ m => simp [tuplesOfSum]
  | succ k ih =>
    intro n
    show ((List.range (n + 1)).flatMap _).Nodup
    rw [List.nodup_flatMap]
    constructor
    · intro j _
      exact (ih j).map List.cons_injective
    · refine (List.pairwise_lt_range (n + 1)).imp ?_
      intro j₁ j₂ hlt
      intro x hx₁ hx₂
      rcases List.mem_map.mp hx₁ with ⟨t₁, ht₁, rfl⟩
      rcases List.mem_map.mp hx₂ with ⟨t₂, ht₂, hEq⟩
      have hs₁ : t₁.sum = j₁ := (mem_tuplesOfSum.mp ht₁).2
      have hs₂ : t₂.sum = j₂ := (mem_tuplesOfSum.mp ht₂).2
      have ht : t₁ = t₂ := (List.cons.injEq _ _ _ _ ▸ hEq).2.symm
      rw [ht] at hs₁
      omega

theorem nodup_polyColumns (bias : Bool) (k d : Nat) :
    (polyColumns bias k d).Nodup := by
  unfold polyColumns
  have hbody : ((List.range d).flatMap (fun i => tuplesOfSum k (i + 1))).Nodup := by
    rw [List.nodup_flatMap]
    refine ⟨fun i _ => nodup_tuplesOfSum k (i + 1), ?_⟩
    refine (List.pairwise_lt_range d).imp ?_
    intro i₁ i₂ hlt
    intro x hx₁ hx₂
    have hs₁ : x.sum = i₁ + 1 := (mem_tuplesOfSum.mp hx₁).2
    have hs₂ : x.sum = i₂ + 1 := (mem_tuplesOfSum.mp hx₂).2
    omega
  cases bias with
  | false => simpa using hbody
  | true =>
    rw [if_pos rfl]
    rw [List.nodup_append]
    refine ⟨by simp, hbody, ?_⟩
    intro x hx hx'
    rcases List.mem_singleton.mp hx with rfl
    rcases List.mem_flatMap.mp hx' with ⟨i, _, hxi⟩
    have hsy : (List.replicate k (0 : Nat)).sum = i + 1 :=
      (mem_tuplesOfSum.mp hxi).2
    have hsx : (List.replicate k (0 : Nat)).sum = 0 := by simp
    omega

theorem count_eq_one_of_nodup_of_mem {α : Type} [BEq α] [LawfulBEq α]
    {a : α} {l : List α} (hn : l.Nodup) (hm : a ∈ l) : l.count a = 1 := by
  induction l with
  | nil => exact absurd hm (by simp)
  | cons b l ih =>
    rw [List.count_cons]
    rcases List.mem_cons.mp hm with rfl | hm'
    · rw [List.count_eq_zero.mpr (List.nodup_cons.mp hn).1]
      simp
    · have hne : b ≠ a := by
        rintro rfl
        exact (List.nodup_cons.mp hn).1 hm'
      rw [ih (List.nodup_cons.mp hn).2 hm']
      simp [hne]

theorem mem_polyColumns {bias : Bool} {k d : Nat} {e : List Nat}
    (hl : e.length = k) (h₁ : 1 ≤ e.sum) (h₂ : e.sum ≤ d) :
    e ∈ polyColumns bias k d := by
  unfold polyColumns
  refine List.mem_append.mpr (Or.inr ?_)
  refine List.mem_flatMap.mpr ⟨e.sum - 1, ?_, ?_⟩
  · rw [List.mem_range]; omega
  · exact mem_tuplesOfSum.mpr ⟨hl, by omega⟩

theorem monEval_cons (x : ℚ) (xs : List ℚ) (i : Nat) (t : List Nat) :
    monEval (x :: xs) (i :: t) = x ^ i * monEval xs t := by
  simp [monEval]

theorem monEval_replicate_zero : ∀ row : List ℚ,
    monEval row (List.replicate row.length 0) = 1 := by
  intro row
  induction row with
  | nil => rfl
  | cons x xs ih =>
    show monEval (x :: xs) (0 :: List.replicate xs.length 0) = 1
    rw [monEval_cons, pow_zero, one_mul, ih]

theorem map_monEval_deg_one : ∀ row : List ℚ,
    (tuplesOfSum row.length 1).map (monEval row) = row := by
  intro row
  induction row with
  | nil => rfl
  | cons x xs ih =>
    show (tuplesOfSum (xs.length + 1) 1).map (monEval (x :: xs)) = x :: xs
    rw [tuplesOfSum_one, List.map_cons, monEval_cons, pow_one,
      monEval_replicate_zero, mul_one, List.map_map]
    congr 1
    rw [show (monEval (x :: xs) ∘ fun t => 0 :: t) = monEval xs by
      funext t
      show monEval (x :: xs) (0 :: t) = monEval xs t
      rw [monEval_cons, pow_zero, one_mul]]
    exact ih

/-- C9: Polynomial expansion with degree 1 yields exactly the original
columns (with the bias column prepended when configured), and for every
degree the generated monomials are duplicate-free — each exponent tuple
with total exponent between 1 and d appears exactly once. -/
theorem poly_degree_one_and_no_duplicates (row : List ℚ) (bias : Bool)
    (k d : Nat) (e : List Nat) (hl : e.length = k) (h₁ : 1 ≤ e.sum)
    (h₂ : e.sum ≤ d) :
    polyTransformRow false 1 row = row ∧
    polyTransformRow true 1 row = 1 :: row ∧
    (polyColumns bias k d).Nodup ∧
    (polyColumns bias k d).count e = 1 := by
  have hone : polyColumns false row.length 1 = tuplesOfSum row.length 1 := by
    unfold polyColumns
    rw [show List.range 1 = [0] from rfl, List.flatMap_cons, List.flatMap_nil]
    simp
  refine ⟨?_, ?_, nodup_polyColumns bias k d,
    count_eq_one_of_nodup_of_mem (nodup_polyColumns bias k d)
      (mem_polyColumns hl h₁ h₂)⟩
  · unfold polyTransformRow
    rw [hone, map_monEval_deg_one]
  · unfold polyTransformRow
    unfold polyColumns
    rw [if_pos rfl, show List.range 1 = [0] from rfl, List.flatMap_cons,
      List.flatMap_nil, List.append_nil, List.singleton_append, List.map_cons,
      monEval_replicate_zero, map_monEval_deg_one]

/-- Witness for C9 at concrete inputs. -/
theorem poly_degree_one_and_no_duplicates_witness :
    ([1, 1] : List Nat).length = 2 ∧ 1 ≤ ([1, 1] : List Nat).sum ∧
    ([1, 1] : List Nat).sum ≤ 2 ∧
    (polyTransformRow false 1 [(2 : ℚ), 3] = [(2 : ℚ), 3] ∧
     polyTransformRow true 1 [(2 : ℚ), 3] = 1 :: [(2 : ℚ), 3] ∧
     (polyColumns true 2 2).Nodup ∧
     (polyColumns true 2 2).count [1, 1] = 1) :=
  ⟨by decide, by decide, by decide,
    poly_degree_one_and_no_duplicates [(2 : ℚ), 3] true 2 2 [1, 1]
      (by decide) (by decide) (by decide)⟩

/-! ### Pipeline composition -/

/-- A feature matrix, as a list of numeric rows. -/
abbrev FeatureMatrix := List (List ℚ)

/-- A pipeline stage, by its fit-then-freeze behaviour: applied to the
fit data it yields the stage's frozen transform. -/
abbrev Stage := FeatureMatrix → (FeatureMatrix → FeatureMatrix)

/-- A terminal estimator: fitting on a feature matrix and a target vector
yields a frozen predictor. -/
abbrev Estimator := FeatureMatrix → List ℚ → (FeatureMatrix → List ℚ)

/-- Modelled from the spec: pipeline `fit` — "runs each stage's
fit-then-transform in sequence, feeding each stage's output as the next
stage's input, finally fitting the terminal estimator on the last
FeatureMatrix and the target vector".  Returns the frozen per-stage
transforms together with the fitted terminal predictor. -/
def pipeFit : List Stage → Estimator → FeatureMatrix → List ℚ →
    List (FeatureMatrix → FeatureMatrix) × (FeatureMatrix → List ℚ)
  | [], est, trainX, y => ([], est trainX y)
  | s :: rest, est, trainX, y =>
    (s trainX :: (pipeFit rest est (s trainX trainX) y).1,
     (pipeFit rest est (s trainX trainX) y).2)

/-- Apply a list of frozen stage transforms in order. -/
def applyAll : List (FeatureMatrix → FeatureMatrix) → FeatureMatrix →
    FeatureMatrix
  | [], z => z
  | t :: ts, z => applyAll ts (t z)

/-- Modelled from the spec: fitted-pipeline `predict` — "replays only the
transform step of every stage (using frozen parameters) followed by the
terminal estimator's prediction". -/
def pipePredict
    (fitted : List (FeatureMatrix → FeatureMatrix) × (FeatureMatrix → List ℚ))
    (z : FeatureMatrix) : List ℚ :=
  fitted.2 (applyAll fitted.1 z)

/-- The spec-side composition, written out by hand: fit each stage on the
progressively transformed training data, transform the training data and
the query with it, and finally fit and apply the terminal estimator. -/
def manualCompose : List Stage → Estimator → FeatureMatrix → List ℚ →
    FeatureMatrix → List ℚ
  | [], est, trainX, y, z => est trainX y z
  | s :: rest, est, trainX, y, z =>
    manualCompose rest est (s trainX trainX) y (s trainX z)

/-- C7: Fitting the pipeline fits the terminal estimator on the training
data pushed through every stage's frozen transform, and the fitted
pipeline's predict replays exactly the frozen transforms followed by the
terminal prediction — equivalent to composing the stages manually. -/
theorem pipeline_refines_manual (stages : List Stage) (est : Estimator)
    (trainX : FeatureMatrix) (y : List ℚ) (z : FeatureMatrix) :
    pipePredict (pipeFit stages est trainX y) z =
      manualCompose stages est trainX y z ∧
    (pipeFit stages est trainX y).2 =
      est (applyAll (pipeFit stages est trainX y).1 trainX) y := by
  induction stages generalizing trainX z with
  | nil => exact ⟨rfl, rfl⟩
  | cons s rest ih =>
    constructor
    · show (pipeFit rest est (s trainX trainX) y).2
        (applyAll (pipeFit rest est (s trainX trainX) y).1 (s trainX z)) =
        manualCompose rest est (s trainX trainX) y (s trainX z)
      exact (ih (s trainX trainX) (s trainX z)).1
    · show (pipeFit rest est (s trainX trainX) y).2 =
        est (applyAll (pipeFit rest est (s trainX trainX) y).1
          (s trainX trainX)) y
      exact (ih (s trainX trainX) z).2

end UMP
